import Mathlib

/-!
Verification development for the HTML error-correcting engine of the
HTML-Compiler repository (`src/html_compiler.py`).

The engine is a single left-to-right pass: a regex-based tokenizer
(pattern `<\s*(/?)(\w+)([^>]*)>` driven by `finditer`), a tag-balance
state machine with an open-tag stack, and an append-only corrected-output
builder.  Text is embedded as `List Char`; the Python objects are
mirrored field by field (`errors`, `corrected_html`, `tag_stack`,
`line_number`).  The open-tag stack is kept with its top at the head of
the list (Python appends and pops at the end of `tag_stack`).
-/

namespace HTMLCompiler

/-- ASCII reading of the regex class `\w` (word character): letters,
digits, underscore. -/
def isWordChar (c : Char) : Bool := c.isAlphanum || c = '_'

/-- The regex class `\s` (whitespace) over Python's whitespace set:
space, tab, newline, carriage return, vertical tab, form feed. -/
def isSpaceChar (c : Char) : Bool :=
  c = ' ' || c = '\t' || c = '\n' || c = '\r' || c = '\x0b' || c = '\x0c'

/-- One match of the tag pattern `<\s*(/?)(\w+)([^>]*)>`:
`full` is group 0 (the whole matched span), `closing` records group 1
(the optional slash of an end tag), `name` is group 2, `rest` is
group 3 (raw attribute text, or the self-closing slash). -/
structure TagTok where
  full : List Char
  closing : Bool
  name : List Char
  rest : List Char
deriving Repr, DecidableEq

/-- Consume an optional leading `/` (the regex group `(/?)`). -/
def splitSlash (t : List Char) : Bool × List Char :=
  match t with
  | [] => (false, [])
  | c :: r => if c = '/' then (true, r) else (false, c :: r)

/-- Consume `([^>]*)>`: everything up to the next `>` (which must
exist), returning the consumed span and the input after the `>`. -/
def takeGt (t : List Char) : Option (List Char × List Char) :=
  match t.dropWhile (fun d => d ≠ '>') with
  | d :: r => if d = '>' then some (t.takeWhile (fun e => e ≠ '>'), r) else none
  | [] => none

/-- Match the tag pattern right after a `<`: `\s*` then `(/?)` then
`(\w+)` (must be non-empty) then `([^>]*)>`. -/
def matchAfterLt (t : List Char) : Option (TagTok × List Char) :=
  let ws := t.takeWhile isSpaceChar
  let sl := splitSlash (t.dropWhile isSpaceChar)
  let name := sl.2.takeWhile isWordChar
  if name.isEmpty then none
  else
    match takeGt (sl.2.dropWhile isWordChar) with
    | some (rest, r) =>
      some (⟨'<' :: (ws ++ (if sl.1 then ['/'] else []) ++ name ++ rest ++ ['>']),
             sl.1, name, rest⟩, r)
    | none => none

/-- Try to match the tag pattern anchored at the start of `s`. -/
def matchTagAt (s : List Char) : Option (TagTok × List Char) :=
  match s with
  | [] => none
  | c :: t => if c = '<' then matchAfterLt t else none

/-- The `finditer` scan: walk left to right; at each position try the
tag pattern; on a match emit the pending text and the tag and continue
after the match, otherwise move the next character into the pending
text.  Returns the (text, tag) hits in order plus the trailing text
after the last match (`html_content[pos:]`).  The `fuel` argument only
bounds the recursion; every step strictly shrinks the input, so a fuel
of `s.length + 1` never runs out. -/
def findIterGo : Nat → List Char → List Char →
    List (List Char × TagTok) × List Char
  | 0, _, pend => ([], pend)
  | fuel + 1, s, pend =>
    match matchTagAt s with
    | some (tok, r) =>
      let rest := findIterGo fuel r []
      ((pend, tok) :: rest.1, rest.2)
    | none =>
      match s with
      | [] => ([], pend)
      | c :: t => findIterGo fuel t (pend ++ [c])

def findIter (s : List Char) : List (List Char × TagTok) × List Char :=
  findIterGo (s.length + 1) s []

/-- One recorded error, mirroring the Python dict
`{'line': …, 'type': 'error', 'message': …}`. -/
structure ErrorRecord where
  line : Nat
  etype : List Char
  message : List Char
deriving Repr, DecidableEq

def errType : List Char := "error".data

def unmatchedMsg (name : List Char) : List Char :=
  "Closing tag </".data ++ name ++ "> without opening tag".data

def mismatchMsg (expected got : List Char) : List Char :=
  "Mismatched tags: expected </".data ++ expected ++ ">, got </".data ++ got ++ ">".data

def missingMsg (name : List Char) : List Char :=
  "Missing closing tag for <".data ++ name ++ ">".data

/-- The synthetic closing tag `</name>` built by the repairs. -/
def closeTag (name : List Char) : List Char := '<' :: '/' :: (name ++ ['>'])

/-- The mutable fields of `HTMLErrorCorrector`.  The stack's top is the
head of `tag_stack`. -/
structure St where
  errors : List ErrorRecord
  corrected_html : List Char
  tag_stack : List (List Char × Nat)
  line_number : Nat
deriving Repr, DecidableEq

def initSt : St := ⟨[], [], [], 1⟩

/-- Python `str.strip()` over our whitespace set. -/
def stripChars (l : List Char) : List Char :=
  ((l.dropWhile isSpaceChar).reverse.dropWhile isSpaceChar).reverse

/-- Python `rest.strip().endswith('/')`: the self-closing test on group 3. -/
def isSelfClosing (rest : List Char) : Bool :=
  (stripChars rest).getLast? == some '/'

/-- Text between tags: `if data: append(data); line_number += data.count('\n')`. -/
def processData (st : St) (data : List Char) : St :=
  if data.isEmpty then st
  else { st with corrected_html := st.corrected_html ++ data,
                 line_number := st.line_number + data.count '\n' }

/-- The per-tag transition of `HTMLErrorCorrector.parse`. -/
def processTag (st : St) (tok : TagTok) : St :=
  if tok.closing = false then
    if isSelfClosing tok.rest then
      { st with corrected_html := st.corrected_html ++ tok.full }
    else
      { st with corrected_html := st.corrected_html ++ tok.full,
                tag_stack := (tok.name, st.line_number) :: st.tag_stack }
  else
    match st.tag_stack with
    | [] =>
      { st with
          errors := st.errors ++ [⟨st.line_number, errType, unmatchedMsg tok.name⟩],
          corrected_html := st.corrected_html ++ tok.full }
    | (last_tag, _) :: stk =>
      if last_tag ≠ tok.name then
        { st with
            errors := st.errors ++ [⟨st.line_number, errType, mismatchMsg last_tag tok.name⟩],
            corrected_html := st.corrected_html ++ closeTag last_tag ++ tok.full,
            tag_stack := stk }
      else
        { st with corrected_html := st.corrected_html ++ tok.full,
                  tag_stack := stk }

/-- One iteration of the `finditer` loop: the text before the match,
then the tag. -/
def processPair (st : St) (p : List Char × TagTok) : St :=
  processTag (processData st p.1) p.2

/-- The data after the last tag is appended without touching the line
counter (`parse` lines 77-79). -/
def appendTrailing (st : St) (data : List Char) : St :=
  if data.isEmpty then st
  else { st with corrected_html := st.corrected_html ++ data }

/-- The end-of-input flush: pop the stack top-first, appending a
synthetic closing tag and recording a missing-closing-tag error for
each popped entry. -/
def flushAux (line : Nat) : List ErrorRecord → List Char →
    List (List Char × Nat) → List ErrorRecord × List Char
  | errs, out, [] => (errs, out)
  | errs, out, (tag, _) :: stk =>
      flushAux line (errs ++ [⟨line, errType, missingMsg tag⟩])
        (out ++ closeTag tag) stk

structure CompileResult where
  corrected_html : List Char
  errors : List ErrorRecord
deriving Repr, DecidableEq

/-- Python `HTMLCompiler.compile`: run `parse` on a fresh corrector and return
the corrected text with the recorded errors. -/
def compile (html : List Char) : CompileResult :=
  let fi := findIter html
  let st := fi.1.foldl processPair initSt
  let st2 := appendTrailing st fi.2
  let fe := flushAux st2.line_number st2.errors st2.corrected_html st2.tag_stack
  ⟨fe.2, fe.1⟩

/-- Python `HTMLCompiler.validate_html`: compile and check for zero errors. -/
def validate_html (html : List Char) : Bool :=
  (compile html).errors.length == 0

/-- Concatenation of the spans covered by the (text, tag) hits of the
scan; together with the trailing text it reassembles the input. -/
def pairsFlat : List (List Char × TagTok) → List Char
  | [] => []
  | p :: ps => p.1 ++ p.2.full ++ pairsFlat ps

/-- The error records produced by the flush for a given stack, top
(innermost) first. -/
def unclosedErrs (line : Nat) : List (List Char × Nat) → List ErrorRecord
  | [] => []
  | (tag, _) :: stk => ⟨line, errType, missingMsg tag⟩ :: unclosedErrs line stk

/-- The synthetic closing tags produced by the flush for a given stack,
top (innermost) first. -/
def closeAll : List (List Char × Nat) → List Char
  | [] => []
  | (tag, _) :: stk => closeTag tag ++ closeAll stk

/-- Invariant tying a list of recorded errors to the current line
counter: line fields are non-decreasing in recording order and never
exceed the counter. -/
def ErrsInv (errs : List ErrorRecord) (line : Nat) : Prop :=
  List.Chain' (· ≤ ·) (errs.map (fun e => e.line)) ∧ ∀ e ∈ errs, e.line ≤ line

/-- Specification-side notion: a token sequence is well formed when
every non-self-closing start tag is matched by a correctly nested end
tag and no end tag lacks an opening tag (the stack discipline succeeds
and ends empty).  Self-closing tags and text are ignored. -/
def balancedTags : List (List Char) → List TagTok → Bool
  | stk, [] => stk.isEmpty
  | stk, tok :: ts =>
    if tok.closing = false then
      if isSelfClosing tok.rest then balancedTags stk ts
      else balancedTags (tok.name :: stk) ts
    else
      match stk with
      | [] => false
      | n :: stk2 => n = tok.name && balancedTags stk2 ts

/-- Specification-side notion: a well-formed input, i.e. one whose
tokenized tag sequence is balanced. -/
def wellFormed (s : List Char) : Bool :=
  balancedTags [] ((findIter s).1.map (fun p => p.2))

theorem takeGt_some {t rest r : List Char} (h : takeGt t = some (rest, r)) :
    t = rest ++ '>' :: r ∧ rest = t.takeWhile (fun e => e ≠ '>') := by
  unfold takeGt at h
  split at h
  case _ d r' heq =>
    split at h
    case isTrue hd =>
      cases h
      subst hd
      refine ⟨?_, rfl⟩
      conv_lhs => rw [← List.takeWhile_append_dropWhile (fun e => decide (e ≠ '>')) t]
      rw [heq]
    case isFalse hd => cases h
  case _ => cases h

theorem matchAfterLt_some {t : List Char} {tok : TagTok} {r : List Char}
    (h : matchAfterLt t = some (tok, r)) :
    ∃ ws, t = ws ++ (if tok.closing then ['/'] else []) ++
        tok.name ++ tok.rest ++ '>' :: r ∧
    tok.full = '<' :: (ws ++ (if tok.closing then ['/'] else []) ++
        tok.name ++ tok.rest ++ ['>']) ∧
    tok.name ≠ [] ∧ (∀ c ∈ tok.rest, ¬ c = '>') := by
  unfold matchAfterLt at h
  dsimp only at h
  split at h
  case isTrue => cases h
  case isFalse hne =>
    split at h
    case _ rest r' heq =>
      cases h
      obtain ⟨hcov, hrest⟩ := takeGt_some heq
      refine ⟨t.takeWhile isSpaceChar, ?_, rfl, ?_, ?_⟩
      · have h1 : (splitSlash (t.dropWhile isSpaceChar)).2 =
            (splitSlash (t.dropWhile isSpaceChar)).2.takeWhile isWordChar ++
            (splitSlash (t.dropWhile isSpaceChar)).2.dropWhile isWordChar :=
          (List.takeWhile_append_dropWhile isWordChar _).symm
        have h2 : t.dropWhile isSpaceChar =
            (if (splitSlash (t.dropWhile isSpaceChar)).1 then ['/'] else []) ++
            (splitSlash (t.dropWhile isSpaceChar)).2 := by
          rcases hd : t.dropWhile isSpaceChar with _ | ⟨c, l⟩
          · simp [splitSlash]
          · simp only [splitSlash]
            split
            case isTrue hc => subst hc; simp
            case isFalse hc => simp
        conv_lhs => rw [← List.takeWhile_append_dropWhile isSpaceChar t, h2, h1, hcov]
        simp
      · intro hemp
        dsimp only at hemp
        rw [hemp] at hne
        simp at hne
      · intro c hc
        dsimp only at hc
        rw [hrest] at hc
        have := List.mem_takeWhile_imp hc
        simpa using this
    case _ => cases h

theorem matchTagAt_some {s : List Char} {tok : TagTok} {r : List Char}
    (h : matchTagAt s = some (tok, r)) :
    s = tok.full ++ r ∧ tok.full ≠ [] := by
  unfold matchTagAt at h
  split at h
  case _ => cases h
  case _ c t =>
    split at h
    case isTrue hc =>
      obtain ⟨ws, hcov, hfull, -, -⟩ := matchAfterLt_some h
      subst hc
      constructor
      · rw [hfull, hcov]
        simp
      · rw [hfull]; simp
    case isFalse => cases h

theorem matchTagAt_length {s : List Char} {tok : TagTok} {r : List Char}
    (h : matchTagAt s = some (tok, r)) : r.length < s.length := by
  obtain ⟨hcov, hne⟩ := matchTagAt_some h
  rw [hcov, List.length_append]
  have : 0 < tok.full.length := List.length_pos.mpr hne
  omega

theorem findIterGo_cover : ∀ (fuel : Nat) (s pend : List Char),
    s.length < fuel →
    pend ++ s = pairsFlat (findIterGo fuel s pend).1 ++ (findIterGo fuel s pend).2 := by
  intro fuel
  induction fuel with
  | zero => intro s pend h; omega
  | succ fuel ih =>
    intro s pend h
    rcases hm : matchTagAt s with _ | ⟨tok, r⟩
    · match s with
      | [] => simp [findIterGo, hm, pairsFlat]
      | c :: t =>
        have ht : t.length < fuel := by
          simp only [List.length_cons] at h; omega
        have := ih t (pend ++ [c]) ht
        simp only [findIterGo, hm]
        simpa using this
    · have hr : r.length < fuel := by
        have h1 := matchTagAt_length hm
        omega
      have hcov := (matchTagAt_some hm).1
      have hrec := ih r [] hr
      simp only [List.nil_append] at hrec
      have hmain : pend ++ s =
          pend ++ (tok.full ++ (pairsFlat (findIterGo fuel r []).1 ++ (findIterGo fuel r []).2)) := by
        rw [hcov, ← hrec]
      simp only [findIterGo, hm, pairsFlat]
      rw [hmain]
      simp [List.append_assoc]

theorem findIter_cover (s : List Char) :
    s = pairsFlat (findIter s).1 ++ (findIter s).2 := by
  have := findIterGo_cover (s.length + 1) s [] (by omega)
  simpa [findIter] using this

theorem flushAux_spec (line : Nat) :
    ∀ (stk : List (List Char × Nat)) (errs : List ErrorRecord) (out : List Char),
    flushAux line errs out stk = (errs ++ unclosedErrs line stk, out ++ closeAll stk) := by
  intro stk
  induction stk with
  | nil => intro errs out; simp [flushAux, unclosedErrs, closeAll]
  | cons e stk ih =>
    intro errs out
    obtain ⟨tag, l⟩ := e
    simp [flushAux, unclosedErrs, closeAll, ih, List.append_assoc]

@[simp] theorem processData_errors (st : St) (d : List Char) :
    (processData st d).errors = st.errors := by
  unfold processData; split <;> rfl

@[simp] theorem processData_stack (st : St) (d : List Char) :
    (processData st d).tag_stack = st.tag_stack := by
  unfold processData; split <;> rfl

@[simp] theorem processData_corrected (st : St) (d : List Char) :
    (processData st d).corrected_html = st.corrected_html ++ d := by
  unfold processData
  split
  case isTrue h =>
    rw [List.isEmpty_iff] at h
    simp [h]
  case isFalse h => rfl

@[simp] theorem processData_line (st : St) (d : List Char) :
    (processData st d).line_number = st.line_number + d.count '\n' := by
  unfold processData
  split
  case isTrue h =>
    rw [List.isEmpty_iff] at h
    simp [h]
  case isFalse h => rfl

@[simp] theorem appendTrailing_errors (st : St) (d : List Char) :
    (appendTrailing st d).errors = st.errors := by
  unfold appendTrailing; split <;> rfl

@[simp] theorem appendTrailing_stack (st : St) (d : List Char) :
    (appendTrailing st d).tag_stack = st.tag_stack := by
  unfold appendTrailing; split <;> rfl

@[simp] theorem appendTrailing_line (st : St) (d : List Char) :
    (appendTrailing st d).line_number = st.line_number := by
  unfold appendTrailing; split <;> rfl

@[simp] theorem appendTrailing_corrected (st : St) (d : List Char) :
    (appendTrailing st d).corrected_html = st.corrected_html ++ d := by
  unfold appendTrailing
  split
  case isTrue h =>
    rw [List.isEmpty_iff] at h
    simp [h]
  case isFalse h => rfl

theorem processTag_start_self (st : St) (tok : TagTok)
    (h1 : tok.closing = false) (h2 : isSelfClosing tok.rest = true) :
    processTag st tok = { st with corrected_html := st.corrected_html ++ tok.full } := by
  unfold processTag
  rw [h1, h2]
  rfl

theorem processTag_start_push (st : St) (tok : TagTok)
    (h1 : tok.closing = false) (h2 : ¬ isSelfClosing tok.rest = true) :
    processTag st tok =
      { st with corrected_html := st.corrected_html ++ tok.full,
                tag_stack := (tok.name, st.line_number) :: st.tag_stack } := by
  unfold processTag
  rw [h1, if_pos rfl, if_neg h2]

theorem processTag_close_empty (st : St) (tok : TagTok)
    (h1 : tok.closing = true) (h2 : st.tag_stack = []) :
    processTag st tok =
      { st with errors := st.errors ++ [⟨st.line_number, errType, unmatchedMsg tok.name⟩],
                corrected_html := st.corrected_html ++ tok.full } := by
  unfold processTag
  rw [h1, if_neg (by simp), h2]

theorem processTag_close_mismatch (st : St) (tok : TagTok)
    (last_tag : List Char) (l : Nat) (stk : List (List Char × Nat))
    (h1 : tok.closing = true) (h2 : st.tag_stack = (last_tag, l) :: stk)
    (h3 : last_tag ≠ tok.name) :
    processTag st tok =
      { st with errors := st.errors ++ [⟨st.line_number, errType, mismatchMsg last_tag tok.name⟩],
                corrected_html := st.corrected_html ++ closeTag last_tag ++ tok.full,
                tag_stack := stk } := by
  unfold processTag
  rw [h1, if_neg (by simp), h2]
  dsimp only
  rw [if_pos h3]

theorem processTag_close_match (st : St) (tok : TagTok)
    (last_tag : List Char) (l : Nat) (stk : List (List Char × Nat))
    (h1 : tok.closing = true) (h2 : st.tag_stack = (last_tag, l) :: stk)
    (h3 : last_tag = tok.name) :
    processTag st tok =
      { st with corrected_html := st.corrected_html ++ tok.full,
                tag_stack := stk } := by
  unfold processTag
  rw [h1, if_neg (by simp), h2]
  dsimp only
  rw [if_neg (by simpa using h3)]

@[simp] theorem processTag_line (st : St) (tok : TagTok) :
    (processTag st tok).line_number = st.line_number := by
  cases h1 : tok.closing
  · by_cases h2 : isSelfClosing tok.rest = true
    · rw [processTag_start_self st tok h1 h2]
    · rw [processTag_start_push st tok h1 h2]
  · rcases h2 : st.tag_stack with _ | ⟨⟨last_tag, l⟩, stk⟩
    · rw [processTag_close_empty st tok h1 h2]
    · by_cases h3 : last_tag = tok.name
      · rw [processTag_close_match st tok last_tag l stk h1 h2 h3]
      · rw [processTag_close_mismatch st tok last_tag l stk h1 h2 h3]

@[simp] theorem processPair_line (st : St) (p : List Char × TagTok) :
    (processPair st p).line_number = st.line_number + p.1.count '\n' := by
  unfold processPair
  rw [processTag_line, processData_line]

theorem processTag_errors_cases (st : St) (tok : TagTok) :
    (processTag st tok).errors = st.errors ∨
    ∃ e, e.line = st.line_number ∧ (processTag st tok).errors = st.errors ++ [e] := by
  cases h1 : tok.closing
  · by_cases h2 : isSelfClosing tok.rest = true
    · rw [processTag_start_self st tok h1 h2]; exact Or.inl rfl
    · rw [processTag_start_push st tok h1 h2]; exact Or.inl rfl
  · rcases h2 : st.tag_stack with _ | ⟨⟨last_tag, l⟩, stk⟩
    · rw [processTag_close_empty st tok h1 h2]
      exact Or.inr ⟨_, rfl, rfl⟩
    · by_cases h3 : last_tag = tok.name
      · rw [processTag_close_match st tok last_tag l stk h1 h2 h3]; exact Or.inl rfl
      · rw [processTag_close_mismatch st tok last_tag l stk h1 h2 h3]
        exact Or.inr ⟨_, rfl, rfl⟩

theorem processTag_noerr {st : St} {tok : TagTok}
    (h : (processTag st tok).errors = st.errors) :
    (processTag st tok).corrected_html = st.corrected_html ++ tok.full := by
  cases h1 : tok.closing
  · by_cases h2 : isSelfClosing tok.rest = true
    · rw [processTag_start_self st tok h1 h2]
    · rw [processTag_start_push st tok h1 h2]
  · rcases h2 : st.tag_stack with _ | ⟨⟨last_tag, l⟩, stk⟩
    · rw [processTag_close_empty st tok h1 h2] at h
      have := congrArg List.length h
      simp at this
    · by_cases h3 : last_tag = tok.name
      · rw [processTag_close_match st tok last_tag l stk h1 h2 h3]
      · rw [processTag_close_mismatch st tok last_tag l stk h1 h2 h3] at h
        have := congrArg List.length h
        simp at this

theorem processPair_noerr {st : St} {p : List Char × TagTok}
    (h : (processPair st p).errors = st.errors) :
    (processPair st p).corrected_html = st.corrected_html ++ p.1 ++ p.2.full := by
  unfold processPair at h ⊢
  rw [← processData_errors st p.1] at h
  rw [processTag_noerr h, processData_corrected]

theorem foldl_errors_extend :
    ∀ (ps : List (List Char × TagTok)) (st : St),
    ∃ δ, (ps.foldl processPair st).errors = st.errors ++ δ := by
  intro ps
  induction ps with
  | nil => intro st; exact ⟨[], by simp⟩
  | cons p ps ih =>
    intro st
    obtain ⟨δ2, h2⟩ := ih (processPair st p)
    have hp : (processPair st p).errors = (processTag (processData st p.1) p.2).errors := rfl
    rcases processTag_errors_cases (processData st p.1) p.2 with h1 | ⟨e, -, h1⟩ <;>
    rw [processData_errors] at h1
    · exact ⟨δ2, by rw [List.foldl_cons, h2, hp, h1]⟩
    · exact ⟨[e] ++ δ2, by rw [List.foldl_cons, h2, hp, h1]; simp⟩

theorem foldl_noerr :
    ∀ (ps : List (List Char × TagTok)) (st : St),
    (ps.foldl processPair st).errors = st.errors →
    (ps.foldl processPair st).corrected_html = st.corrected_html ++ pairsFlat ps := by
  intro ps
  induction ps with
  | nil => intro st _; simp [pairsFlat]
  | cons p ps ih =>
    intro st h
    rw [List.foldl_cons] at h ⊢
    obtain ⟨δ2, h2⟩ := foldl_errors_extend ps (processPair st p)
    have hp : (processPair st p).errors = (processTag (processData st p.1) p.2).errors := rfl
    rcases processTag_errors_cases (processData st p.1) p.2 with h1 | ⟨e, -, h1⟩ <;>
    rw [processData_errors] at h1 <;> rw [hp] at h2
    · have hstep : (processPair st p).errors = st.errors := by rw [hp, h1]
      have hfin : (ps.foldl processPair (processPair st p)).errors = (processPair st p).errors := by
        rw [h2, h1] at h ⊢
        rw [h, hstep]
      rw [ih _ hfin, processPair_noerr hstep]
      simp [pairsFlat]
    · rw [h2, h1] at h
      have := congrArg List.length h
      simp at this

theorem unclosedErrs_eq_nil {line : Nat} {stk : List (List Char × Nat)}
    (h : unclosedErrs line stk = []) : stk = [] := by
  cases stk with
  | nil => rfl
  | cons e stk =>
    obtain ⟨tag, l⟩ := e
    simp [unclosedErrs] at h

/-- The function `compile` written out through the flush characterization: the fold
state determines both outputs. -/
theorem compile_eq (s : List Char) :
    compile s =
      ⟨((findIter s).1.foldl processPair initSt).corrected_html ++ (findIter s).2 ++
          closeAll ((findIter s).1.foldl processPair initSt).tag_stack,
        ((findIter s).1.foldl processPair initSt).errors ++
          unclosedErrs ((findIter s).1.foldl processPair initSt).line_number
            ((findIter s).1.foldl processPair initSt).tag_stack⟩ := by
  unfold compile
  dsimp only
  rw [flushAux_spec]
  simp

theorem foldl_balanced :
    ∀ (ps : List (List Char × TagTok)) (st : St),
    balancedTags (st.tag_stack.map (fun e => e.1)) (ps.map (fun p => p.2)) = true →
    (ps.foldl processPair st).errors = st.errors ∧
    (ps.foldl processPair st).corrected_html = st.corrected_html ++ pairsFlat ps ∧
    (ps.foldl processPair st).tag_stack = [] := by
  intro ps
  induction ps with
  | nil =>
    intro st h
    simp only [List.map_nil, balancedTags, List.isEmpty_iff, List.map_eq_nil_iff] at h
    exact ⟨rfl, by simp [pairsFlat], h⟩
  | cons p ps ih =>
    intro st h
    simp only [List.map_cons, balancedTags] at h
    rw [List.foldl_cons]
    have hpp : processPair st p = processTag (processData st p.1) p.2 := rfl
    cases h1 : p.2.closing
    · rw [h1] at h
      simp only [if_pos rfl] at h
      by_cases h2 : isSelfClosing p.2.rest = true
      · rw [if_pos h2] at h
        rw [hpp, processTag_start_self _ _ h1 h2]
        have := ih { processData st p.1 with
            corrected_html := (processData st p.1).corrected_html ++ p.2.full } (by simpa using h)
        simpa [pairsFlat, List.append_assoc] using this
      · rw [if_neg h2] at h
        rw [hpp, processTag_start_push _ _ h1 h2]
        have := ih { processData st p.1 with
            corrected_html := (processData st p.1).corrected_html ++ p.2.full,
            tag_stack := (p.2.name, (processData st p.1).line_number) :: (processData st p.1).tag_stack }
          (by simpa using h)
        simpa [pairsFlat, List.append_assoc] using this
    · rw [h1] at h
      simp only [Bool.true_eq_false, if_false] at h
      rcases hst : st.tag_stack with _ | ⟨⟨last_tag, l⟩, stk⟩
      · rw [hst] at h
        simp at h
      · rw [hst] at h
        simp only [List.map_cons] at h
        rw [Bool.and_eq_true, decide_eq_true_eq] at h
        obtain ⟨hname, hbal⟩ := h
        rw [hpp, processTag_close_match (processData st p.1) p.2 last_tag l stk h1
          (by rw [processData_stack, hst]) hname]
        have := ih { processData st p.1 with
            corrected_html := (processData st p.1).corrected_html ++ p.2.full,
            tag_stack := stk } (by simpa using hbal)
        simpa [pairsFlat, List.append_assoc] using this

theorem ErrsInv_mono {errs : List ErrorRecord} {line line' : Nat}
    (h : ErrsInv errs line) (hle : line ≤ line') : ErrsInv errs line' :=
  ⟨h.1, fun e he => le_trans (h.2 e he) hle⟩

theorem ErrsInv_push {errs : List ErrorRecord} {line : Nat} {e : ErrorRecord}
    (h : ErrsInv errs line) (he : e.line = line) : ErrsInv (errs ++ [e]) line := by
  obtain ⟨h1, h2⟩ := h
  constructor
  · rw [List.map_append, List.chain'_append]
    refine ⟨h1, by simp, ?_⟩
    intro x hx y hy
    simp only [List.map_cons, List.map_nil, List.head?_cons, Option.mem_def,
      Option.some.injEq] at hy
    subst hy
    have hx2 : x ∈ errs.map (fun e => e.line) := by
      obtain ⟨hne, rfl⟩ := List.mem_getLast?_eq_getLast hx
      exact List.getLast_mem hne
    obtain ⟨e2, he2, rfl⟩ := List.mem_map.mp hx2
    rw [he]
    exact h2 e2 he2
  · intro e2 he2
    rcases List.mem_append.mp he2 with h3 | h3
    · exact h2 e2 h3
    · simp only [List.mem_singleton] at h3
      subst h3
      exact le_of_eq he

theorem ErrsInv_flush {errs : List ErrorRecord} {line : Nat}
    (stk : List (List Char × Nat)) (h : ErrsInv errs line) :
    ErrsInv (errs ++ unclosedErrs line stk) line := by
  induction stk generalizing errs with
  | nil => simpa [unclosedErrs] using h
  | cons e stk ih =>
    obtain ⟨tag, l⟩ := e
    have h2 := ErrsInv_push h (rfl :
      (⟨line, errType, missingMsg tag⟩ : ErrorRecord).line = line)
    have := ih h2
    simpa [unclosedErrs, List.append_assoc] using this

theorem processTag_ErrsInv {st : St} (tok : TagTok)
    (h : ErrsInv st.errors st.line_number) :
    ErrsInv (processTag st tok).errors (processTag st tok).line_number := by
  rw [processTag_line]
  rcases processTag_errors_cases st tok with h1 | ⟨e, hline, h1⟩
  · rw [h1]; exact h
  · rw [h1]; exact ErrsInv_push h hline

theorem processPair_ErrsInv {st : St} (p : List Char × TagTok)
    (h : ErrsInv st.errors st.line_number) :
    ErrsInv (processPair st p).errors (processPair st p).line_number := by
  unfold processPair
  refine processTag_ErrsInv p.2 ?_
  rw [processData_errors, processData_line]
  exact ErrsInv_mono h (Nat.le_add_right _ _)

theorem foldl_ErrsInv :
    ∀ (ps : List (List Char × TagTok)) (st : St),
    ErrsInv st.errors st.line_number →
    ErrsInv (ps.foldl processPair st).errors (ps.foldl processPair st).line_number := by
  intro ps
  induction ps with
  | nil => intro st h; exact h
  | cons p ps ih =>
    intro st h
    rw [List.foldl_cons]
    exact ih _ (processPair_ErrsInv p h)

theorem compile_noerr {s : List Char} (h : (compile s).errors = []) :
    (compile s).corrected_html = s := by
  have hc := compile_eq s
  rw [hc] at h
  dsimp only at h
  obtain ⟨h1, h2⟩ := List.append_eq_nil.mp h
  have hstk := unclosedErrs_eq_nil h2
  have hfold := foldl_noerr (findIter s).1 initSt (by rw [h1]; rfl)
  rw [hc]
  dsimp only
  rw [hstk, hfold]
  simpa [initSt, closeAll, List.append_assoc] using (findIter_cover s).symm

theorem compile_wellFormed_aux {s : List Char} (h : wellFormed s = true) :
    (compile s).errors = [] ∧ (compile s).corrected_html = s := by
  unfold wellFormed at h
  obtain ⟨he, hcor, hstk⟩ := foldl_balanced (findIter s).1 initSt (by simpa using h)
  have herr : (compile s).errors = [] := by
    rw [compile_eq s]
    dsimp only
    rw [he, hstk]
    rfl
  exact ⟨herr, compile_noerr herr⟩

theorem compile_chain (s : List Char) :
    List.Chain' (· ≤ ·) ((compile s).errors.map (fun e => e.line)) := by
  have hinv : ErrsInv initSt.errors initSt.line_number := by
    constructor
    · simp [initSt]
    · intro e he
      simp [initSt] at he
  have h2 := foldl_ErrsInv (findIter s).1 initSt hinv
  have h3 := ErrsInv_flush ((findIter s).1.foldl processPair initSt).tag_stack h2
  rw [compile_eq s]
  dsimp only
  exact h3.1

theorem foldl_line :
    ∀ (ps : List (List Char × TagTok)) (st : St),
    (ps.foldl processPair st).line_number =
      st.line_number + (ps.map (fun p => p.1.count '\n')).sum := by
  intro ps
  induction ps with
  | nil => intro st; simp
  | cons p ps ih =>
    intro st
    rw [List.foldl_cons, ih, processPair_line]
    simp [Nat.add_assoc]

theorem matchTagAt_ends_gt {s : List Char} {tok : TagTok} {r : List Char}
    (h : matchTagAt s = some (tok, r)) :
    tok.full.getLast? = some '>' ∧ (∀ c ∈ tok.rest, ¬ c = '>') := by
  unfold matchTagAt at h
  split at h
  case _ => cases h
  case _ c t =>
    split at h
    case isTrue hc =>
      obtain ⟨ws, hcov, hfull, hname, hrest⟩ := matchAfterLt_some h
      refine ⟨?_, hrest⟩
      rw [hfull]
      rw [show ('<' :: (ws ++ (if tok.closing then ['/'] else []) ++
            tok.name ++ tok.rest ++ ['>'])) =
          ('<' :: (ws ++ (if tok.closing then ['/'] else []) ++
            tok.name ++ tok.rest)) ++ ['>'] from by simp]
      exact List.getLast?_concat _
    case isFalse => cases h

/-- C1: `compile` is total: every input string — the empty string,
strings without tags, strings of only text included — yields a
`CompileResult` carrying a corrected string and an ordered error list;
no input reaches an exception or partial-failure path (the embedding is
a total structurally-recursive function). -/
theorem C1_compile_total :
    (∀ s : List Char, ∃ out errs, compile s = ⟨out, errs⟩) ∧
    compile [] = ⟨[], []⟩ ∧
    compile "no tags at all".data = ⟨"no tags at all".data, []⟩ ∧
    compile "just\nsome\ntext".data = ⟨"just\nsome\ntext".data, []⟩ :=
  ⟨fun s => ⟨(compile s).corrected_html, (compile s).errors, rfl⟩,
   by decide, by decide, by decide⟩

/-- C2 counterexample: the corrected output is NOT always well formed
and recompiling it does NOT always give an empty error list: for input
`</div>` the unmatched end tag is passed through verbatim, so the
corrected output `</div>` recompiles with the same unmatched-close
error. -/
theorem C2_counterexample :
    (compile "</div>".data).corrected_html = "</div>".data ∧
    (compile ((compile "</div>".data).corrected_html)).errors ≠ [] := by
  decide

/-- C2 amended: the round-trip guarantee holds exactly when the first
pass found no errors: if `compile(text).errors` is empty then
`correctedHtml` equals `text` and recompiling it again yields an empty
error list.  (When the first pass does report errors the corrected
output may recompile with errors, e.g. an unmatched end tag passed
through verbatim.) -/
theorem C2_roundtrip_noerr (s : List Char) (h : (compile s).errors = []) :
    (compile s).corrected_html = s ∧
    (compile ((compile s).corrected_html)).errors = [] := by
  have h1 := compile_noerr h
  exact ⟨h1, by rw [h1]; exact h⟩

theorem C2_roundtrip_noerr_witness :
    (compile "<div>hi</div>".data).corrected_html = "<div>hi</div>".data ∧
    (compile ((compile "<div>hi</div>".data).corrected_html)).errors = [] :=
  C2_roundtrip_noerr "<div>hi</div>".data (by decide)

/-- C3: on well-formed input (the tokenized tag sequence balances: every
non-self-closing start tag matched by a correctly nested end tag, no
stray end tag), `compile` reports no errors and returns the input text
unchanged — every tag and text fragment verbatim and in order. -/
theorem C3_balanced_roundtrip (s : List Char) (h : wellFormed s = true) :
    (compile s).errors = [] ∧ (compile s).corrected_html = s :=
  compile_wellFormed_aux h

theorem C3_balanced_roundtrip_witness :
    (compile "<div><p>hi</p></div>".data).errors = [] ∧
    (compile "<div><p>hi</p></div>".data).corrected_html =
      "<div><p>hi</p></div>".data :=
  C3_balanced_roundtrip "<div><p>hi</p></div>".data (by decide)

/-- C4 counterexample: the mismatch repair does NOT push the end tag's
name back onto the stack.  Processing `</a>` against open-tag stack
`[b]` (the state reached from input `<b></a>`) records the mismatch,
emits `</b>` then the original end tag, and pops — leaving the stack
`[]`, not `[a]` as the claimed re-push would; consequently
`compile "<b></a>"` reports one error, not the second (unclosed `a`)
the re-push would force. -/
theorem C4_counterexample :
    (processTag ⟨[], "<b>".data, [("b".data, 1)], 1⟩
        ⟨"</a>".data, true, "a".data, []⟩).tag_stack = [] ∧
    (processTag ⟨[], "<b>".data, [("b".data, 1)], 1⟩
        ⟨"</a>".data, true, "a".data, []⟩).tag_stack ≠ [("a".data, 1)] ∧
    (compile "<b></a>".data).errors.length = 1 := by
  decide

/-- C4 amended: whenever an end tag `</name>` is processed while the
open-tag stack is non-empty and the top entry's name differs from
`name`, the machine records exactly one mismatch error at the current
line (message `Mismatched tags: expected </top>, got </name>`), appends
a synthetic closing tag for the top name followed by the original end
tag verbatim, and pops the stack; the end tag's name is NOT pushed
back. -/
theorem C4_mismatch_step (st : St) (tok : TagTok) (last_tag : List Char)
    (l : Nat) (stk : List (List Char × Nat))
    (h1 : tok.closing = true) (h2 : st.tag_stack = (last_tag, l) :: stk)
    (h3 : last_tag ≠ tok.name) :
    processTag st tok =
      { st with
          errors := st.errors ++
            [⟨st.line_number, errType, mismatchMsg last_tag tok.name⟩],
          corrected_html := st.corrected_html ++ closeTag last_tag ++ tok.full,
          tag_stack := stk } :=
  processTag_close_mismatch st tok last_tag l stk h1 h2 h3

theorem C4_mismatch_step_witness :
    processTag ⟨[], [], [("b".data, 1)], 1⟩ ⟨"</a>".data, true, "a".data, []⟩ =
      ⟨[⟨1, errType, mismatchMsg "b".data "a".data⟩],
        closeTag "b".data ++ "</a>".data, [], 1⟩ :=
  C4_mismatch_step ⟨[], [], [("b".data, 1)], 1⟩ ⟨"</a>".data, true, "a".data, []⟩
    "b".data 1 [] rfl rfl (by decide)

/-- C5: at end of input the flush pops the open-tag stack
most-recently-opened first, appending one synthetic closing tag and
recording one missing-closing-tag error (at the flush-time line value)
per popped entry, so the records appear innermost first; concretely,
`compile "<div><p>hi"` yields exactly the two unclosed-tag errors for
`p` then `div` and output `<div><p>hi</p></div>`. -/
theorem C5_flush_order :
    (∀ (line : Nat) (stk : List (List Char × Nat))
        (errs : List ErrorRecord) (out : List Char),
      flushAux line errs out stk =
        (errs ++ unclosedErrs line stk, out ++ closeAll stk)) ∧
    compile "<div><p>hi".data =
      ⟨"<div><p>hi</p></div>".data,
       [⟨1, errType, missingMsg "p".data⟩,
        ⟨1, errType, missingMsg "div".data⟩]⟩ :=
  ⟨fun line stk errs out => flushAux_spec line stk errs out, by decide⟩

/-- C6: an end tag processed while the open-tag stack is empty records
exactly one unmatched-close error at the current line, appends the end
tag verbatim to the output anyway, and leaves the stack unchanged;
concretely `compile "</div>"` yields exactly that one error at line 1
and output `</div>`. -/
theorem C6_unmatched_close :
    (∀ (st : St) (tok : TagTok), tok.closing = true → st.tag_stack = [] →
      processTag st tok =
        { st with
            errors := st.errors ++
              [⟨st.line_number, errType, unmatchedMsg tok.name⟩],
            corrected_html := st.corrected_html ++ tok.full }) ∧
    compile "</div>".data =
      ⟨"</div>".data, [⟨1, errType, unmatchedMsg "div".data⟩]⟩ :=
  ⟨fun st tok h1 h2 => processTag_close_empty st tok h1 h2, by decide⟩

theorem C6_unmatched_close_witness :
    processTag ⟨[], [], [], 1⟩ ⟨"</div>".data, true, "div".data, []⟩ =
      ⟨[⟨1, errType, unmatchedMsg "div".data⟩], "</div>".data, [], 1⟩ :=
  C6_unmatched_close.1 ⟨[], [], [], 1⟩ ⟨"</div>".data, true, "div".data, []⟩
    rfl rfl

/-- C7: a start tag whose raw trailing content ends with `/` after
stripping whitespace is classified self-closing: it is appended
verbatim to the output and never pushed onto the open-tag stack;
concretely `compile "<img src=\x22x\x22/>"` yields zero errors and
output equal to the input. -/
theorem C7_self_closing :
    (∀ (st : St) (tok : TagTok), tok.closing = false →
      isSelfClosing tok.rest = true →
      processTag st tok =
        { st with corrected_html := st.corrected_html ++ tok.full }) ∧
    compile "<img src=\"x\"/>".data = ⟨"<img src=\"x\"/>".data, []⟩ :=
  ⟨fun st tok h1 h2 => processTag_start_self st tok h1 h2, by decide⟩

theorem C7_self_closing_witness :
    processTag ⟨[], [], [], 1⟩
        ⟨"<img src=\"x\"/>".data, false, "img".data, " src=\"x\"/".data⟩ =
      ⟨[], "<img src=\"x\"/>".data, [], 1⟩ :=
  C7_self_closing.1 ⟨[], [], [], 1⟩
    ⟨"<img src=\"x\"/>".data, false, "img".data, " src=\"x\"/".data⟩
    rfl (by decide)

/-- C8: the line counter starts at 1 and advances only by the newline
count of the text tokens consumed so far; tag tokens advance it by
zero; concretely `compile "<div>\n</span>"` reports its mismatch error
at line 2. -/
theorem C8_line_tracking :
    (∀ ps : List (List Char × TagTok),
      (ps.foldl processPair initSt).line_number =
        1 + (ps.map (fun p => p.1.count '\n')).sum) ∧
    (∀ (st : St) (tok : TagTok),
      (processTag st tok).line_number = st.line_number) ∧
    (compile "<div>\n</span>".data).errors =
      [⟨2, errType, mismatchMsg "div".data "span".data⟩] :=
  ⟨fun ps => foldl_line ps initSt, fun st tok => processTag_line st tok, by decide⟩

/-- C9: for every input, the line fields of successive error records in
`compile(text).errors` are monotonically non-decreasing in recording
order. -/
theorem C9_monotone_lines (s : List Char) :
    List.Chain' (· ≤ ·) ((compile s).errors.map (fun e => e.line)) :=
  compile_chain s

/-- C10: a recognized tag token ends at the first `>` after `<` and the
tag name, even when that `>` sits inside a quoted attribute value: the
matched span contains no other `>` and ends with `>`, and on the input
`<div title="a>b">` the tokenizer recognizes the tag span
`<div title="a>` and leaves the remainder `b">` as text. -/
theorem C10_tag_ends_first_gt :
    (∀ (s : List Char) (tok : TagTok) (r : List Char),
      matchTagAt s = some (tok, r) →
      (∀ c ∈ tok.rest, ¬ c = '>') ∧ s = tok.full ++ r ∧
      tok.full.getLast? = some '>') ∧
    findIter "<div title=\"a>b\">".data =
      ([([], ⟨"<div title=\"a>".data, false, "div".data, " title=\"a".data⟩)],
       "b\">".data) :=
  ⟨fun s tok r h =>
    ⟨(matchTagAt_ends_gt h).2, (matchTagAt_some h).1, (matchTagAt_ends_gt h).1⟩,
   by decide⟩

theorem C10_tag_ends_first_gt_witness :
    (∀ c ∈ (⟨"<div title=\"a>".data, false, "div".data,
        " title=\"a".data⟩ : TagTok).rest, ¬ c = '>') ∧
    "<div title=\"a>b\">".data =
      (⟨"<div title=\"a>".data, false, "div".data,
        " title=\"a".data⟩ : TagTok).full ++ "b\">".data ∧
    (⟨"<div title=\"a>".data, false, "div".data,
        " title=\"a".data⟩ : TagTok).full.getLast? = some '>' :=
  C10_tag_ends_first_gt.1 "<div title=\"a>b\">".data
    ⟨"<div title=\"a>".data, false, "div".data, " title=\"a".data⟩
    "b\">".data (by decide)

end HTMLCompiler
